import Mathlib

/-!
Verification of the `govers` command (rogpeppe/govers).

The development shallowly embeds the program's core logic:

* `canonicalPath`, and the import-rewrite step of `changeVersion`
  (`govers.go`): versioned path elements `/vN/` are collapsed and
  an import is rewritten when its canonical form equals that of the
  new package path;
* the derived-pattern machinery `pathVersionPat` / `fixPath` of the
  flag-bearing variant of the command (`src/unnamed/part_000`), including
  a backtracking matcher for the generated regular expression;
* `walkDir`, `checkPackage` (memoized dependency check), the rewrite
  phase of `main`, and `splitQuotedFields` (`tags.go`).

Go strings are modelled as `List Char` (import paths are ASCII, and the
program indexes strings by byte); Go maps keyed by strings become
association lists; `build.Import` becomes a lookup in a finite import
table, and the file system becomes an explicit finite tree.

Left-to-right scans that consume a computed number of characters per
step (`canonicalPath`, `markVers`, `splitQuotedFields`) are written with
an explicit step budget so that they are structurally recursive and
kernel-computable; every step consumes at least one character, so a
budget equal to the length of the input (plus one) always suffices and
the budgeted function agrees with the Go loop.
-/

/-- Go strings, modelled as lists of characters. -/
abbrev Str := List Char

/-- Characters of a Lean string literal, used to write concrete inputs. -/
def chars (s : String) : Str := s.data

/-! ## canonicalPath (govers.go:186-190)

`versPat = regexp.MustCompile("/v[0-9]+/")` and
`canonicalPath(p) = versPat.ReplaceAllString(p, "0")`. -/

/-- Length of a match of `/v[0-9]+/` at the head of `s`, if any
(`[0-9]+` is greedy; a shorter digit run would be followed by a digit,
never by `/`, so only the maximal run can match). -/
def vMatch : Str → Option Nat
  | '/' :: 'v' :: rest =>
      let m := (rest.takeWhile Char.isDigit).length
      if 0 < m ∧ (rest.drop m).head? = some '/' then some (m + 3) else none
  | _ => none

theorem vMatch_pos {s : Str} {n : Nat} (h : vMatch s = some n) : 0 < n := by
  unfold vMatch at h
  split at h
  · dsimp only at h
    split at h
    · cases h; omega
    · cases h
  · cases h

/-- The scan of `ReplaceAllString`: at each position, replace a match of
`/v[0-9]+/` by `'0'` and continue after it, otherwise keep the character
and move one position right. -/
def canonGo : Nat → Str → Str
  | 0, s => s
  | Nat.succ b, s =>
      match s with
      | [] => []
      | c :: rest =>
          match vMatch (c :: rest) with
          | some n => '0' :: canonGo b ((c :: rest).drop n)
          | none => c :: canonGo b rest

/-- `canonicalPath` replaces every (leftmost, non-overlapping) occurrence
of `/v[0-9]+/` by `"0"`. -/
def canonicalPath (s : Str) : Str := canonGo s.length s

/-- The rewrite applied to a single import path by `changeVersion`
(govers.go:159-166): when the canonical paths agree the import is set to
the new package path, otherwise it is left alone. -/
def fixImport (fix p : Str) : Str :=
  if canonicalPath p = canonicalPath fix then fix else p

example : canonicalPath (chars "a/v1/b") = chars "a0b" := by decide
example : canonicalPath (chars "gopkg.in/tomb.v2") = chars "gopkg.in/tomb.v2" := by decide
example : fixImport (chars "a/v2/b") (chars "a/v1/b") = chars "a/v2/b" := by decide
example : fixImport (chars "a/v2/b") (chars "a/v1/b/c") = chars "a/v1/b/c" := by decide

/-! ## The derived pattern and fixPath (src/unnamed/part_000)

The flag-bearing variant derives a regular expression from the new
package path: `versPat = [/|\.]v[0-9]+(-unstable)?`, every match of
`versPat(/|$)` in the new path is replaced by `#`, the result is quoted,
`#` is turned back into `versPat`, and the whole is wrapped as
`^(...)(/|$)`.  The generated pattern is an alternation-free sequence of
literal pieces and version elements, so we embed it as a `List Piece`
and give the backtracking (leftmost-first, greedy — Go's regexp
submatch semantics) matcher directly. -/

/-- A piece of the generated pattern: a literal string or one version
element `[/|\.]v[0-9]+(-unstable)?`. -/
inductive Piece : Type where
  | lit : Str → Piece
  | vers : Piece
deriving DecidableEq, Repr

/-- The characters of the literal `-unstable`. -/
def unstableChars : Str := chars "-unstable"

/-- All lengths a match of `[/|\.]v[0-9]+(-unstable)?` at the head of
`s` can have, in the order a backtracking engine prefers them: longest
digit run first, and `-unstable` present before absent.  (A digit run
shorter than the maximal one is followed by a digit, so `-unstable` can
only follow the maximal run; checking it after every run is harmless.) -/
def matchVers : Str → List Nat
  | c :: 'v' :: rest =>
      if c = '/' ∨ c = '|' ∨ c = '.' then
        let m := (rest.takeWhile Char.isDigit).length
        (List.range m).flatMap (fun j =>
          let k := m - j
          if unstableChars.isPrefixOf (rest.drop k) then [2 + k + 9, 2 + k]
          else [2 + k])
      else []
  | _ => []

/-- All lengths a match of the piece sequence at the head of `s` can
have, in backtracking preference order. -/
def matchPieces : List Piece → Str → List Nat
  | [], _ => [0]
  | Piece.lit l :: ps, s =>
      if l.isPrefixOf s then (matchPieces ps (s.drop l.length)).map (· + l.length)
      else []
  | Piece.vers :: ps, s =>
      (matchVers s).flatMap (fun n => (matchPieces ps (s.drop n)).map (· + n))

/-- Length of the preferred match of `versPat(/|$)` at the head of `s`
(the trailing `/`, when that alternative is taken, is part of the
match), or `none`. -/
def versReMatch (s : Str) : Option Nat :=
  (matchVers s).findSome? fun n =>
    if (s.drop n).head? = some '/' then some (n + 1)
    else if s.length = n then some n else none

/-- One step bound for the `ReplaceAllString` scan over `versPat(/|$)`:
replace a match by `'#'` and continue after it, else keep the character. -/
def markGo : Nat → Str → Str
  | 0, s => s
  | Nat.succ b, s =>
      match s with
      | [] => []
      | c :: rest =>
          match versReMatch (c :: rest) with
          | some n => '#' :: markGo b ((c :: rest).drop n)
          | none => c :: markGo b rest

/-- `versRe.ReplaceAllString(p, "#")` of `pathVersionPat`. -/
def markVers (s : Str) : Str := markGo s.length s

/-- Split a marked string at the `'#'` markers. -/
def splitHash : Str → List Str
  | [] => [[]]
  | c :: rest =>
      if c = '#' then [] :: splitHash rest
      else
        match splitHash rest with
        | [] => [[c]]
        | l :: ls => (c :: l) :: ls

/-- Put one version element between consecutive literal fragments. -/
def interleave : List Str → List Piece
  | [] => []
  | [l] => [Piece.lit l]
  | l :: rest => Piece.lit l :: Piece.vers :: interleave rest

/-- The piece sequence of the pattern `pathVersionPat` derives from the
new package path (the `^( ... )` group; the final `(/|$)` is checked
separately by the matcher). -/
def piecesOf (nk : Str) : List Piece := interleave (splitHash (markVers nk))

/-- `FindStringSubmatchIndex` end of group 1: the first (in preference
order) end position of the piece sequence that is followed by `/` or by
the end of the string. -/
def findGroupEnd (pieces : List Piece) (p : Str) : Option Nat :=
  (matchPieces pieces p).find? fun i =>
    decide ((p.drop i).head? = some '/' ∨ i = p.length)

/-- `fixPath` of src/unnamed/part_000:202-212: if the derived pattern
does not match, return `p`; otherwise replace the prefix matched by
group 1 with the new package path (when the prefix already equals the
new package path the string is returned unchanged). -/
def fixPath (nk p : Str) : Str :=
  match findGroupEnd (piecesOf nk) p with
  | none => p
  | some i => if p.take i = nk then p else nk ++ p.drop i

example : piecesOf (chars "gopkg.in/tomb.v3") =
    [Piece.lit (chars "gopkg.in/tomb"), Piece.vers, Piece.lit []] := by decide
example : fixPath (chars "gopkg.in/tomb.v3") (chars "gopkg.in/tomb.v2") =
    chars "gopkg.in/tomb.v3" := by decide
example : fixPath (chars "gopkg.in/tomb.v3") (chars "gopkg.in/tomb.v2/x") =
    chars "gopkg.in/tomb.v3/x" := by decide
example : fixPath (chars "gopkg.in/tomb.v3") (chars "gopkg.in/tombx.v2") =
    chars "gopkg.in/tombx.v2" := by decide
example : fixPath (chars "foo/v2-unstable/x") (chars "foo/v1/x") =
    chars "foo/v1/x" := by decide
example : fixPath (chars "foo/v2") (chars "foo/v1-unstable/x") =
    chars "foo/v2/x" := by decide

/-! ## changeVersion (govers.go:151-184)

A parsed Go file is its list of import-path string literals together
with everything else (`rest`), which the parse/print round trip leaves
untouched.  `changeImports` is the loop over `f.Imports`: it returns the
rewritten import list and the `changed` flag.  When nothing changed the
file is not opened for writing and `changeVersion` returns `false`;
otherwise the printed file is written back. -/

/-- A parsed Go source file: the import paths and the remainder of the
AST, which `changeVersion` never touches. -/
structure GoFile where
  mk :: (imports : List Str) (rest : Str)
deriving DecidableEq

/-- The loop of `changeVersion` over the import specs: each import whose
canonical path equals that of the new package path is set to the new
package path and the `changed` flag is raised. -/
def changeImports (fix : Str) : List Str → List Str × Bool
  | [] => ([], false)
  | p :: rest =>
      let r := changeImports fix rest
      if canonicalPath p = canonicalPath fix then (fix :: r.1, true)
      else (p :: r.1, r.2)

/-- `changeVersion` on one parsed file: the returned Boolean is the
`changed` result; the written file, when a write happens, is the
round-tripped AST with the rewritten imports. -/
def changeVersionFile (fix : Str) (f : GoFile) : Bool × Option GoFile :=
  let r := changeImports fix f.imports
  if r.2 then (true, some { imports := r.1, rest := f.rest }) else (false, none)

/-! ## walkDir (govers.go:85-111)

The file system under the working directory is a finite tree: a
directory holds plain-file names and named subdirectories.  `env` is
`buildCtxt.Import(".", dir, build.FindOnly)`: the import path of the
package a directory resolves to, if any.  `walkDir` recurses into every
subdirectory whose name does not begin with a dot, collects the `.go`
entries of the directory itself, and registers the package last. -/

mutual
inductive FSDir : Type where
  | mk : List Str → FSubs → FSDir
inductive FSubs : Type where
  | nil : FSubs
  | cons : Str → FSDir → FSubs → FSubs
end

/-- `filepath.Join`. -/
def joinPath (p n : Str) : Str := p ++ '/' :: n

/-- The `.go` entries of a directory, joined to the directory path in
entry order — the `goFiles` list `walkDir` builds. -/
def goFilesOf (path : Str) (files : List Str) : List Str :=
  (files.filter fun n => (chars ".go").isSuffixOf n).map (joinPath path)

mutual
def walkDir (env : Str → Option Str) (path : Str) : FSDir → List (Str × List Str)
  | FSDir.mk files subs =>
      walkSubs env path subs ++
        (match env path with
         | some ip => [(ip, goFilesOf path files)]
         | none => [])
def walkSubs (env : Str → Option Str) (path : Str) : FSubs → List (Str × List Str)
  | FSubs.nil => []
  | FSubs.cons n d rest =>
      (if n.head? = some '.' then [] else walkDir env (joinPath path n) d) ++
        walkSubs env path rest
end

/-- Look a name up among the subdirectories. -/
def subsFind : FSubs → Str → Option FSDir
  | FSubs.nil, _ => none
  | FSubs.cons n d rest, m => if n = m then some d else subsFind rest m

/-- The subdirectory reached from `d` by following the component list. -/
def dirAt : FSDir → List Str → Option FSDir
  | d, [] => some d
  | FSDir.mk _ subs, n :: rest =>
      match subsFind subs n with
      | some d => dirAt d rest
      | none => none

/-- The path of the directory reached by the component list. -/
def pathAt (root : Str) (comps : List Str) : Str := comps.foldl joinPath root

def filesOfDir : FSDir → List Str
  | FSDir.mk files _ => files

/-! ## checkPackage (govers.go:113-144)

`g` is the package-import table (`build.Import` on a path either fails
— `none` — or yields the package's import list); `edit` holds the keys
of `ctxt.editPkgs`; `fix` is the new package path.  The state carries
the `checked` map, the `failed` flag, the set of packages whose
`needsEdit` flag was raised, the log written to standard error, the
`trace` of paths passed to `build.Import`, and a flag recording fuel
exhaustion.  Fuel decreases only with recursion depth; marking a path
checked before recursing bounds the depth, so any fuel beyond the
number of unchecked table keys is enough (proved below). -/

structure CheckState where
  checked : List Str
  failed : Bool
  needsEdit : List Str
  log : List (Str × Str)
  trace : List Str
  exhausted : Bool
deriving DecidableEq

def initState : CheckState :=
  { checked := [], failed := false, needsEdit := [], log := [], trace := [], exhausted := false }

/-- The body of the loop over `pkg.Imports`: skip `"C"`; an import in
the same package family but at a different version either raises
`needsEdit` (the package is being edited, and the recursion continues at
the new path) or is logged as a failure (`continue`: no recursion);
every other import is checked recursively. -/
def importStep (edit : List Str) (fix : Str) (recur : Str → CheckState → CheckState)
    (path : Str) (st : CheckState) (impPath : Str) : CheckState :=
  if impPath = chars "C" then st
  else if canonicalPath impPath = canonicalPath fix ∧ impPath ≠ fix then
    if path ∈ edit then recur fix { st with needsEdit := path :: st.needsEdit }
    else { st with failed := true, log := st.log ++ [(path, impPath)] }
  else recur impPath st

def checkPackage (g : List (Str × List Str)) (edit : List Str) (fix : Str) :
    Nat → Str → CheckState → CheckState
  | 0, _, s => { s with exhausted := true }
  | Nat.succ f, path, s =>
      if path ∈ s.checked then s
      else
        let s1 : CheckState :=
          { s with checked := path :: s.checked, trace := s.trace ++ [path] }
        match List.lookup path g with
        | none => s1
        | some imps =>
            List.foldl (importStep edit fix (checkPackage g edit fix f) path) s1 imps

/-- The loop `for path := range ctxt.editPkgs { ctxt.checkPackage(path) }`. -/
def runChecks (g : List (Str × List Str)) (edit : List Str) (fix : Str)
    (fuel : Nat) (roots : List Str) (s : CheckState) : CheckState :=
  roots.foldl (fun st p => checkPackage g edit fix fuel p st) s

/-! ## The rewrite phase and main (govers.go:19-67)

`fileImports` gives the parsed imports of each `.go` file.  The rewrite
phase iterates over the edit set; for a package marked `needsEdit` it
runs `changeVersion` on every file (the `changed` flag is the
disjunction, and `changeVersion` runs unconditionally for each file) and
prints the package path if some file changed. -/

/-- The inner loop `for _, file := range ep.goFiles`: the accumulated
`changed` flag and the files written back with their new imports. -/
def rewriteFiles (fileImports : Str → List Str) (fix : Str) :
    List Str → Bool × List (Str × List Str)
  | [] => (false, [])
  | file :: rest =>
      let r := changeImports fix (fileImports file)
      let rr := rewriteFiles fileImports fix rest
      (r.2 || rr.1, (if r.2 then [(file, r.1)] else []) ++ rr.2)

/-- The loop `for path, ep := range ctxt.editPkgs` of the rewrite phase:
packages not marked `needsEdit` are skipped; the first component is what
`main` prints, the second the writes performed. -/
def rewritePhase (needs : List Str) (fileImports : Str → List Str) (fix : Str) :
    List (Str × List Str) → List Str × List (Str × List Str)
  | [] => ([], [])
  | (path, files) :: rest =>
      let rr := rewritePhase needs fileImports fix rest
      if path ∈ needs then
        let fr := rewriteFiles fileImports fix files
        ((if fr.1 then [path] else []) ++ rr.1, fr.2 ++ rr.2)
      else rr

structure MainResult where
  exit : Nat
  printed : List Str
  writes : List (Str × List Str)
  state : CheckState
deriving DecidableEq

/-- `main` of govers.go: walk the tree, check every package of the edit
set, run the rewrite phase, and exit nonzero when the check failed.  The
guard `if ctxt.failed { os.Exit(1) }` between the check phase and the
rewrite phase is commented out in govers.go:48-50, so the rewrite phase
runs regardless of `failed`. -/
def mainRun (env : Str → Option Str) (tree : FSDir) (root : Str)
    (g : List (Str × List Str)) (fileImports : Str → List Str)
    (fix : Str) (fuel : Nat) : MainResult :=
  let editPkgs := walkDir env root tree
  let editKeys := editPkgs.map Prod.fst
  let s1 := runChecks g editKeys fix fuel editKeys initState
  let rw := rewritePhase s1.needsEdit fileImports fix editPkgs
  { exit := if s1.failed then 1 else 0, printed := rw.1, writes := rw.2, state := s1 }

/-! ## splitQuotedFields (tags.go:20-54) -/

def isSpaceByte (c : Char) : Bool :=
  c = ' ' || c = '\t' || c = '\n' || c = '\r'

def dquote : Char := '"'
def squote : Char := Char.ofNat 39

/-- Split at the first occurrence of `q`: the part before it and the
part after it, or `none` when `q` does not occur. -/
def splitAtChar (q : Char) : Str → Option (Str × Str)
  | [] => none
  | c :: rest =>
      if c = q then some ([], rest)
      else
        match splitAtChar q rest with
        | none => none
        | some (a, b) => some (c :: a, b)

/-- The loop of `splitQuotedFields`: skip leading space; a field opening
with a quote runs to the first matching quote (error if there is none)
and is kept without the quotes; otherwise the field is the maximal run
of non-space bytes.  The error value is the unterminated quote. -/
def sqfGo : Nat → Str → Except Char (List Str)
  | 0, _ => Except.ok []
  | Nat.succ b, s =>
      match s with
      | [] => Except.ok []
      | c :: rest =>
          if isSpaceByte c then sqfGo b rest
          else if c = dquote ∨ c = squote then
            match splitAtChar c rest with
            | none => Except.error c
            | some (field, rest2) =>
                match sqfGo b rest2 with
                | Except.error e => Except.error e
                | Except.ok fs => Except.ok (field :: fs)
          else
            match sqfGo b ((c :: rest).dropWhile fun d => !(isSpaceByte d)) with
            | Except.error e => Except.error e
            | Except.ok fs =>
                Except.ok (((c :: rest).takeWhile fun d => !(isSpaceByte d)) :: fs)

def splitQuotedFields (s : Str) : Except Char (List Str) := sqfGo (s.length + 1) s

/-- The claim's description of successful splitting, as an inductive
relation: leading space is skipped, a field beginning with a quote
extends to the matching quote and loses the surrounding quotes with no
unescaping inside, and any other field is a maximal run of non-space
bytes. -/
inductive Fields : Str → List Str → Prop where
  | nil : Fields [] []
  | space {c s fs} : isSpaceByte c = true → Fields s fs → Fields (c :: s) fs
  | quoted {c a b fs} : (c = dquote ∨ c = squote) → c ∉ a → Fields b fs →
      Fields (c :: (a ++ c :: b)) (a :: fs)
  | bare {c s fs} : isSpaceByte c = false → ¬(c = dquote ∨ c = squote) →
      Fields ((c :: s).dropWhile (fun d => !(isSpaceByte d))) fs →
      Fields (c :: s) (((c :: s).takeWhile fun d => !(isSpaceByte d)) :: fs)

/-- The claim's error condition: after skipping space and complete
fields, the input reaches a field that opens with a quote having no
later matching closing quote. -/
inductive Unterm : Str → Prop where
  | base {c rest} : (c = dquote ∨ c = squote) → c ∉ rest → Unterm (c :: rest)
  | space {c s} : isSpaceByte c = true → Unterm s → Unterm (c :: s)
  | quoted {c a b} : (c = dquote ∨ c = squote) → c ∉ a → Unterm b →
      Unterm (c :: (a ++ c :: b))
  | bare {c s} : isSpaceByte c = false → ¬(c = dquote ∨ c = squote) →
      Unterm ((c :: s).dropWhile fun d => !(isSpaceByte d)) → Unterm (c :: s)

example : splitQuotedFields (chars " a 'b c' d") =
    Except.ok [chars "a", chars "b c", chars "d"] := by rfl
example : splitQuotedFields (chars "ab\"cd") = Except.ok [chars "ab\"cd"] := by rfl
example : splitQuotedFields (chars "a \"bc") = Except.error '"' := by rfl
example : splitQuotedFields (chars "''") = Except.ok [[]] := by rfl

/-! ## Derived notions used by the theorems -/

/-- What `checkPackage` only ever grows: the checked map, the failure
flag, the log and the import trace. -/
def stateLE (s r : CheckState) : Prop :=
  (∀ a, a ∈ s.checked → a ∈ r.checked) ∧
  (s.failed = true → r.failed = true) ∧
  (∀ e, e ∈ s.log → e ∈ r.log) ∧
  (∀ a, a ∈ s.trace → a ∈ r.trace) ∧
  (s.exhausted = true → r.exhausted = true)

/-- Invariant tying the trace of `build.Import` calls to the checked
map: the trace has no duplicates and every traced path is checked. -/
def TraceInv (s : CheckState) : Prop :=
  s.trace.Nodup ∧ ∀ a ∈ s.trace, a ∈ s.checked

/-- The keys of the import table. -/
def uni (g : List (Str × List Str)) : List Str := g.map Prod.fst

/-- The number of table keys not yet checked: fuel beyond this bound is
never consumed. -/
def badCount (g : List (Str × List Str)) (s : CheckState) : Nat :=
  ((uni g).filter fun a => decide (a ∉ s.checked)).length

/-- Package `path` — not in the edit set — imports `imp`, which is in
the same package family as the new package path (equal canonical paths)
but is not the new package path itself. -/
def inconsistentUse (g : List (Str × List Str)) (edit : List Str)
    (fix path imp : Str) : Prop :=
  path ∉ edit ∧ imp ∈ (List.lookup path g).getD [] ∧ imp ≠ chars "C" ∧
    canonicalPath imp = canonicalPath fix ∧ imp ≠ fix

instance (g : List (Str × List Str)) (edit : List Str) (fix path imp : Str) :
    Decidable (inconsistentUse g edit fix path imp) := by
  unfold inconsistentUse; infer_instance

/-! Concrete inputs used by counterexamples and witnesses. -/

/-- One directory `/cwd` holding `f.go`; it resolves to package `root`. -/
def bugTree : FSDir := FSDir.mk [chars "f.go"] FSubs.nil

def bugEnv : Str → Option Str :=
  fun p => if p = chars "/cwd" then some (chars "root") else none

/-- `root` imports the old version `a/v1/b`; the dependency `a/v2/b`
(the new version itself, reached through the rewritten import) also
still imports `a/v1/b`, which makes the check fail. -/
def bugTable : List (Str × List Str) :=
  [(chars "root", [chars "a/v1/b"]), (chars "a/v2/b", [chars "a/v1/b"])]

def bugFileImports : Str → List Str :=
  fun f => if f = chars "/cwd/f.go" then [chars "a/v1/b"] else []

/-- The whole run of `main` on that failing input. -/
def bugRun : MainResult :=
  mainRun bugEnv bugTree (chars "/cwd") bugTable bugFileImports (chars "a/v2/b") 6

/-- A cyclic two-package import graph. -/
def cycTable : List (Str × List Str) :=
  [(chars "a", [chars "b"]), (chars "b", [chars "a"])]

def cycFix : Str := chars "x/v1/y"

/-- A tree whose only subdirectory is hidden and holds a Go package. -/
def hiddenTree : FSDir :=
  FSDir.mk [] (FSubs.cons (chars ".h") (FSDir.mk [chars "a.go"] FSubs.nil) FSubs.nil)

/-- A tree with one visible package subdirectory. -/
def sampleTree : FSDir :=
  FSDir.mk [chars "x.go"]
    (FSubs.cons (chars "sub")
      (FSDir.mk [chars "z.go", chars "w.txt"] FSubs.nil) FSubs.nil)

/-- The test `canonicalPath(impPath) == ctxt.fixPackageCanon` as a
Boolean predicate. -/
def matchesFix (fix p : Str) : Bool := decide (canonicalPath p = canonicalPath fix)

/-! # Theorems -/

theorem changeImports_eq (fix : Str) : ∀ imps, changeImports fix imps =
    (imps.map (fixImport fix), imps.any (matchesFix fix))
  | [] => rfl
  | p :: rest => by
      simp only [changeImports, changeImports_eq fix rest, List.map_cons, List.any_cons,
        fixImport, matchesFix]
      by_cases h : canonicalPath p = canonicalPath fix <;> simp [h]

theorem matchVers_le {s : Str} {n : Nat} (h : n ∈ matchVers s) : n ≤ s.length := by
  rw [matchVers.eq_def] at h
  split at h
  · rename_i c rest
    split at h
    · simp only [List.mem_flatMap, List.mem_range] at h
      obtain ⟨j, _, hm⟩ := h
      have htw : (rest.takeWhile Char.isDigit).length ≤ rest.length :=
        (List.takeWhile_prefix _).length_le
      split at hm
      · rename_i hu
        have h9 : unstableChars.length ≤
            (rest.drop ((rest.takeWhile Char.isDigit).length - j)).length :=
          (List.isPrefixOf_iff_prefix.mp hu).length_le
        have h9' : unstableChars.length = 9 := by decide
        simp only [List.mem_cons, List.not_mem_nil, or_false] at hm
        rcases hm with rfl | rfl <;>
          simp only [List.length_drop, h9', List.length_cons] at h9 ⊢ <;> omega
      · simp only [List.mem_cons, List.not_mem_nil, or_false] at hm
        subst hm
        simp only [List.length_cons]
        omega
    · simp at h
  · simp at h

theorem matchPieces_le : ∀ (ps : List Piece) (s : Str) {n : Nat},
    n ∈ matchPieces ps s → n ≤ s.length
  | [], s, n, h => by
      simp only [matchPieces, List.mem_singleton] at h
      subst h; exact Nat.zero_le _
  | Piece.lit l :: ps, s, n, h => by
      simp only [matchPieces] at h
      split at h
      · rename_i hpre
        simp only [List.mem_map] at h
        obtain ⟨n', hn', rfl⟩ := h
        have h1 := matchPieces_le ps (s.drop l.length) hn'
        have h2 : l.length ≤ s.length := (List.isPrefixOf_iff_prefix.mp hpre).length_le
        simp only [List.length_drop] at h1
        omega
      · simp at h
  | Piece.vers :: ps, s, n, h => by
      simp only [matchPieces, List.mem_flatMap, List.mem_map] at h
      obtain ⟨n', hn', n'', hn'', rfl⟩ := h
      have h1 := matchVers_le hn'
      have h2 := matchPieces_le ps (s.drop n') hn''
      simp only [List.length_drop] at h2
      omega

theorem findGroupEnd_le {pieces : List Piece} {p : Str} {i : Nat}
    (h : findGroupEnd pieces p = some i) : i ≤ p.length :=
  matchPieces_le pieces p (List.mem_of_find?_eq_some h)

/-- C9: the rewrite applied to each import by govers.go is idempotent:
a path already rewritten to the new package path still has the canonical
path of the new package path, so a second run maps it to the new package
path again, and a path left alone is left alone again.  Running the tool
twice therefore changes no import. -/
theorem fixImport_idempotent (fix p : Str) :
    fixImport fix (fixImport fix p) = fixImport fix p := by
  unfold fixImport
  by_cases h : canonicalPath p = canonicalPath fix <;> simp [h]

/-- C5: `fixPath` is a substitution guarded by the derived pattern: when
the pattern does not match, the string is returned unchanged; when group
1 of the pattern matches the prefix ending at `i`, the result is the new
package path followed by the remainder of the string (also when that
prefix already equals the new package path, in which case the two
agree). -/
theorem fixPath_guarded_substitution (nk p : Str) :
    (findGroupEnd (piecesOf nk) p = none → fixPath nk p = p) ∧
    (∀ i, findGroupEnd (piecesOf nk) p = some i →
      i ≤ p.length ∧ fixPath nk p = nk ++ p.drop i) := by
  constructor
  · intro h; simp [fixPath, h]
  · intro i h
    refine ⟨findGroupEnd_le h, ?_⟩
    simp only [fixPath, h]
    split
    · rename_i htake
      conv_lhs => rw [← List.take_append_drop i p]
      rw [htake]
    · rfl

/-- Witness for C5: the pattern derived from `gopkg.in/tomb.v3` matches
`gopkg.in/tomb.v2/x` with group 1 ending at byte 16, and `fixPath`
returns the new path plus the remainder `/x`. -/
theorem fixPath_guarded_substitution_witness :
    16 ≤ (chars "gopkg.in/tomb.v2/x").length ∧
    fixPath (chars "gopkg.in/tomb.v3") (chars "gopkg.in/tomb.v2/x") =
      chars "gopkg.in/tomb.v3" ++ (chars "gopkg.in/tomb.v2/x").drop 16 :=
  (fixPath_guarded_substitution (chars "gopkg.in/tomb.v3")
    (chars "gopkg.in/tomb.v2/x")).2 16 (by decide)

/-- C1 counterexample: with new package path `gopkg.in/t.v2` the derived
versioned pattern matches the prefix `gopkg.in/t.v1` of the import
`gopkg.in/t.v1/sub` (group 1 ends at byte 13, followed by `/`), so the
claim demands the rewrite `gopkg.in/t.v2/sub`; the loop of
`changeVersion` in govers.go nevertheless leaves the import unchanged,
because its guard is equality of canonical paths and `/v[0-9]+/` does
not see dotted version elements, let alone prefixes. -/
theorem changeVersion_prefix_counterexample :
    findGroupEnd (piecesOf (chars "gopkg.in/t.v2")) (chars "gopkg.in/t.v1/sub") = some 13 ∧
    changeImports (chars "gopkg.in/t.v2") [chars "gopkg.in/t.v1/sub"] =
      ([chars "gopkg.in/t.v1/sub"], false) ∧
    chars "gopkg.in/t.v2" ++ (chars "gopkg.in/t.v1/sub").drop 13 ≠
      chars "gopkg.in/t.v1/sub" :=
  ⟨by decide, by decide, by decide⟩

/-- C1 amended: `changeVersion` rewrites exactly the imports whose
canonical path (every `/vN/` element collapsed) equals the canonical
path of the new package path, replacing the whole import by the new
package path; every other import is left unchanged; the `changed` flag
is raised exactly when some import matches. -/
theorem changeVersion_rewrites_canonical_matches (fix : Str) (imps : List Str) :
    changeImports fix imps = (imps.map (fixImport fix), imps.any (matchesFix fix)) :=
  changeImports_eq fix imps

/-- C6: when no import of the file matches, `changeVersion` returns
`false` and performs no write; when some import matches, it returns
`true` and the written file is the round-tripped AST of the original
with exactly the matching import paths replaced and everything else
(`rest`) untouched. -/
theorem changeVersion_frame (fix : Str) (f : GoFile) :
    (f.imports.any (matchesFix fix) = false → changeVersionFile fix f = (false, none)) ∧
    (f.imports.any (matchesFix fix) = true →
      changeVersionFile fix f =
        (true, some { imports := f.imports.map (fixImport fix), rest := f.rest })) := by
  constructor <;> intro h <;> simp [changeVersionFile, changeImports_eq, h]

/-- Witness for C6: a file importing the old version `a/v1/b` is written
back with the import rewritten and the rest of the file unchanged. -/
theorem changeVersion_frame_witness :
    (GoFile.mk [chars "a/v1/b"] (chars "package p")).imports.any
        (matchesFix (chars "a/v2/b")) = true ∧
    changeVersionFile (chars "a/v2/b") (GoFile.mk [chars "a/v1/b"] (chars "package p")) =
      (true, some
        { imports := (GoFile.mk [chars "a/v1/b"] (chars "package p")).imports.map
            (fixImport (chars "a/v2/b")),
          rest := (GoFile.mk [chars "a/v1/b"] (chars "package p")).rest }) :=
  ⟨by decide, (changeVersion_frame (chars "a/v2/b")
    (GoFile.mk [chars "a/v1/b"] (chars "package p"))).2 (by decide)⟩

theorem rewriteFiles_changed (fi : Str → List Str) (fix : Str) :
    ∀ files, (rewriteFiles fi fix files).1 =
      files.any fun f => (fi f).any (matchesFix fix)
  | [] => rfl
  | file :: rest => by
      simp only [rewriteFiles, changeImports_eq, List.any_cons,
        rewriteFiles_changed fi fix rest]

/-- C10: the rewrite phase prints exactly the packages of the edit set
that are marked `needsEdit` and have at least one file for which
`changeVersion` reports a change (some import in the same family as the
new package path), in iteration order; packages not marked, or whose
files all report no change, are not printed. -/
theorem main_prints_changed_packages (needs : List Str) (fi : Str → List Str) (fix : Str) :
    ∀ pkgs, (rewritePhase needs fi fix pkgs).1 =
      (pkgs.filter fun pe =>
        decide (pe.1 ∈ needs) && pe.2.any fun f => (fi f).any (matchesFix fix)).map
        Prod.fst
  | [] => rfl
  | (path, files) :: rest => by
      have IH := main_prints_changed_packages needs fi fix rest
      by_cases hmem : path ∈ needs
      · by_cases hch : (files.any fun f => (fi f).any (matchesFix fix)) = true
        · simp [rewritePhase, List.filter_cons, hmem, hch, rewriteFiles_changed, IH]
        · simp only [Bool.not_eq_true] at hch
          simp [rewritePhase, List.filter_cons, hmem, hch, rewriteFiles_changed, IH]
      · simp [rewritePhase, List.filter_cons, hmem, IH]

/-- C2 (code bug): on `bugRun`'s input the dependency check records a
failure (`a/v2/b`, outside the edit set, still imports `a/v1/b`), yet
`main` rewrites `/cwd/f.go` and prints the package before exiting 1: the
guard `if ctxt.failed { os.Exit(1) }` between the two phases is
commented out in govers.go:48-50, contradicting the documented "govers
will fail and do nothing". -/
theorem main_rewrites_despite_failed_check :
    bugRun.state.failed = true ∧ bugRun.exit = 1 ∧
    bugRun.writes = [(chars "/cwd/f.go", [chars "a/v2/b"])] ∧
    bugRun.printed = [chars "root"] :=
  ⟨by decide, by decide, by decide, by decide⟩

theorem mem_walkSubs {env : Str → Option Str} {path : Str} :
    ∀ (subs : FSubs) (n : Str) (d : FSDir), subsFind subs n = some d →
      n.head? ≠ some '.' →
      ∀ x, x ∈ walkDir env (joinPath path n) d → x ∈ walkSubs env path subs
  | FSubs.nil, n, d, h, _, x, _ => by simp [subsFind] at h
  | FSubs.cons m d' rest, n, d, h, hn, x, hx => by
      simp only [subsFind] at h
      split at h
      · rename_i hm
        cases h
        subst hm
        simp only [walkSubs, List.mem_append]
        left
        rw [if_neg hn]
        exact hx
      · rename_i hm
        simp only [walkSubs, List.mem_append]
        right
        exact mem_walkSubs rest n d h hn x hx

/-- C4 amended: `walkDir` registers an entry for every directory that is
reachable from the root by components none of which begins with a dot
and that resolves to a Go package; the entry holds the directory's
`.go` entries (joined to its path, in entry order).  Directories behind
a hidden component are not walked (see the counterexample). -/
theorem walkDir_registers_reachable_packages (env : Str → Option Str) :
    ∀ (comps : List Str) (root : Str) (d d' : FSDir) (ip : Str),
      dirAt d comps = some d' →
      (∀ n ∈ comps, n.head? ≠ some '.') →
      env (pathAt root comps) = some ip →
      (ip, goFilesOf (pathAt root comps) (filesOfDir d')) ∈ walkDir env root d
  | [], root, d, d', ip, hdir, _, henv => by
      simp only [dirAt] at hdir
      cases hdir
      cases d with
      | mk files subs =>
        simp only [pathAt, List.foldl_nil] at henv ⊢
        simp only [walkDir, henv, filesOfDir, List.mem_append]
        right
        simp
  | n :: rest, root, d, d', ip, hdir, hvis, henv => by
      cases d with
      | mk files subs =>
        simp only [dirAt] at hdir
        cases hsf : subsFind subs n with
        | none => rw [hsf] at hdir; cases hdir
        | some d1 =>
            rw [hsf] at hdir
            have hpath : pathAt root (n :: rest) = pathAt (joinPath root n) rest := by
              simp [pathAt]
            rw [hpath] at henv
            have IH := walkDir_registers_reachable_packages env rest (joinPath root n)
              d1 d' ip hdir (fun m hm => hvis m (List.mem_cons_of_mem _ hm)) henv
            rw [hpath]
            simp only [walkDir, List.mem_append]
            left
            exact mem_walkSubs subs n d1 hsf (hvis n (List.mem_cons_self _ _)) _ IH

/-- Witness for C4 (amended): in `sampleTree` the visible subdirectory
`sub` resolves to a package and is registered with its `.go` entries. -/
theorem walkDir_registers_reachable_packages_witness :
    (chars "r/sub",
      goFilesOf (pathAt (chars "r") [chars "sub"])
        (filesOfDir (FSDir.mk [chars "z.go", chars "w.txt"] FSubs.nil))) ∈
      walkDir (fun p => some p) (chars "r") sampleTree :=
  walkDir_registers_reachable_packages (fun p => some p) [chars "sub"] (chars "r")
    sampleTree (FSDir.mk [chars "z.go", chars "w.txt"] FSubs.nil) (chars "r/sub")
    rfl (by decide) rfl

/-- C4 counterexample: the hidden directory `.h` under the root resolves
to a Go package (the environment resolves every directory) and contains
`a.go`, yet `walkDir` never recurses into it, so no entry for it is
registered: the claim's "every directory that resolves to a Go package"
fails for directories behind a dot component. -/
theorem walkDir_hidden_counterexample :
    dirAt hiddenTree [chars ".h"] = some (FSDir.mk [chars "a.go"] FSubs.nil) ∧
    (fun p => some p) (pathAt (chars "r") [chars ".h"]) = some (chars "r/.h") ∧
    walkDir (fun p => some p) (chars "r") hiddenTree = [(chars "r", [])] ∧
    (chars "r/.h", goFilesOf (chars "r/.h") [chars "a.go"]) ∉
      walkDir (fun p => some p) (chars "r") hiddenTree :=
  ⟨rfl, rfl, rfl, by decide⟩

theorem foldl_pred {P : CheckState → Prop} {f : CheckState → Str → CheckState}
    (h : ∀ st a, P st → P (f st a)) :
    ∀ (l : List Str) (s : CheckState), P s → P (List.foldl f s l)
  | [], _, hs => hs
  | a :: l, s, hs => foldl_pred h l (f s a) (h s a hs)

theorem stateLE_refl (s : CheckState) : stateLE s s :=
  ⟨fun _ h => h, id, fun _ h => h, fun _ h => h, id⟩

theorem stateLE_trans {s t u : CheckState} (h1 : stateLE s t) (h2 : stateLE t u) :
    stateLE s u :=
  ⟨fun a ha => h2.1 a (h1.1 a ha), fun hf => h2.2.1 (h1.2.1 hf),
   fun e he => h2.2.2.1 e (h1.2.2.1 e he), fun a ha => h2.2.2.2.1 a (h1.2.2.2.1 a ha),
   fun hx => h2.2.2.2.2 (h1.2.2.2.2 hx)⟩

theorem importStep_le (edit : List Str) (fix : Str) {recur : Str → CheckState → CheckState}
    (hrec : ∀ q st, stateLE st (recur q st)) (path : Str) :
    ∀ st imp, stateLE st (importStep edit fix recur path st imp) := by
  intro st imp
  unfold importStep
  split
  · exact stateLE_refl st
  · split
    · split
      · refine stateLE_trans ?_ (hrec _ _)
        exact ⟨fun _ h => h, id, fun _ h => h, fun _ h => h, id⟩
      · exact ⟨fun _ h => h, fun _ => rfl, fun e he => List.mem_append_left _ he,
          fun _ h => h, id⟩
    · exact hrec _ _

theorem checkPackage_le (g : List (Str × List Str)) (edit : List Str) (fix : Str) :
    ∀ (fuel : Nat) (path : Str) (s : CheckState),
      stateLE s (checkPackage g edit fix fuel path s)
  | 0, path, s => by
      simp only [checkPackage]
      exact ⟨fun _ h => h, id, fun _ h => h, fun _ h => h, fun _ => rfl⟩
  | Nat.succ f, path, s => by
      simp only [checkPackage]
      split
      · exact stateLE_refl s
      · have hs1 : stateLE s { s with checked := path :: s.checked, trace := s.trace ++ [path] } :=
          ⟨fun a ha => List.mem_cons_of_mem _ ha, id, fun _ h => h,
           fun a ha => List.mem_append_left _ ha, id⟩
      
        cases hl : List.lookup path g with
        | none => simp only [hl]; exact hs1
        | some imps =>
            simp only [hl]
            refine stateLE_trans hs1 (foldl_pred ?_ imps _ (stateLE_refl _))
            intro st a h
            exact stateLE_trans h
              (importStep_le edit fix (fun q st' => checkPackage_le g edit fix f q st') path st a)

theorem checkPackage_traceInv (g : List (Str × List Str)) (edit : List Str) (fix : Str) :
    ∀ (fuel : Nat) (path : Str) (s : CheckState),
      TraceInv s → TraceInv (checkPackage g edit fix fuel path s)
  | 0, path, s, hs => by
      simp only [checkPackage]
      exact hs
  | Nat.succ f, path, s, hs => by
      simp only [checkPackage]
      split
      · exact hs
      · rename_i hchk
        have hs1 : TraceInv { s with checked := path :: s.checked, trace := s.trace ++ [path] } := by
          obtain ⟨hnd, hsub⟩ := hs
          constructor
          · have hnotin : path ∉ s.trace := fun hmem => hchk (hsub _ hmem)
            simp [List.nodup_append, hnd, hnotin]
          · intro a ha
            simp only [List.mem_append, List.mem_singleton] at ha
            rcases ha with h | h
            · exact List.mem_cons_of_mem _ (hsub a h)
            · subst h; exact List.mem_cons_self _ _
        cases hl : List.lookup path g with
        | none => simp only [hl]; exact hs1
        | some imps =>
            simp only [hl]
            refine foldl_pred ?_ imps _ hs1
            intro st a h
            unfold importStep
            split
            · exact h
            · split
              · split
                · exact checkPackage_traceInv g edit fix f _ _ h
                · exact h
              · exact checkPackage_traceInv g edit fix f _ _ h

theorem lookup_mem_keys : ∀ {g : List (Str × List Str)} {path : Str} {v : List Str},
    List.lookup path g = some v → path ∈ uni g
  | [], path, v, h => by simp [List.lookup] at h
  | (k, w) :: rest, path, v, h => by
      simp only [List.lookup] at h
      split at h
      · rename_i hbeq
        have : path = k := by simpa using hbeq
        subst this
        exact List.mem_cons_self _ _
      · exact List.mem_cons_of_mem _ (lookup_mem_keys h)

theorem filter_notin_le : ∀ (l c₁ c₂ : List Str), (∀ a, a ∈ c₁ → a ∈ c₂) →
    (l.filter fun a => decide (a ∉ c₂)).length ≤ (l.filter fun a => decide (a ∉ c₁)).length
  | [], _, _, _ => Nat.le_refl 0
  | a :: l, c₁, c₂, h => by
      simp only [List.filter_cons]
      by_cases h2 : a ∈ c₂
      · have h2' : decide (a ∉ c₂) = false := by simp [h2]
        rw [h2']
        by_cases h1 : a ∈ c₁
        · have h1' : decide (a ∉ c₁) = false := by simp [h1]
          rw [h1']
          exact filter_notin_le l c₁ c₂ h
        · have h1' : decide (a ∉ c₁) = true := by simp [h1]
          rw [h1']
          simp only [cond_true, cond_false, List.length_cons]
          exact Nat.le_succ_of_le (filter_notin_le l c₁ c₂ h)
      · have h1 : a ∉ c₁ := fun hm => h2 (h a hm)
        have h2' : decide (a ∉ c₂) = true := by simp [h2]
        have h1' : decide (a ∉ c₁) = true := by simp [h1]
        rw [h1', h2']
        simp only [List.length_cons]
        exact Nat.succ_le_succ (filter_notin_le l c₁ c₂ h)

theorem filter_notin_lt : ∀ (l c : List Str) (path : Str), path ∈ l → path ∉ c →
    (l.filter fun a => decide (a ∉ path :: c)).length <
      (l.filter fun a => decide (a ∉ c)).length
  | [], _, _, h, _ => absurd h (List.not_mem_nil _)
  | a :: l, c, path, h, hnc => by
      simp only [List.filter_cons]
      by_cases hap : a = path
      · subst hap
        have l1 : decide (a ∉ a :: c) = false := by simp
        have l2 : decide (a ∉ c) = true := by simp [hnc]
        rw [l1, l2]
        simp only [List.length_cons]
        exact Nat.lt_succ_of_le
          (filter_notin_le l c (a :: c) fun x hx => List.mem_cons_of_mem _ hx)
      · have heq : decide (a ∉ path :: c) = decide (a ∉ c) := by
          by_cases hac : a ∈ c <;> simp [hac, hap]
        rw [heq]
        have hmem : path ∈ l := by
          rcases List.mem_cons.mp h with h' | h'
          · exact absurd h'.symm hap
          · exact h'
        by_cases hac : a ∈ c
        · have : decide (a ∉ c) = false := by simp [hac]
          rw [this]
          exact filter_notin_lt l c path hmem hnc
        · have : decide (a ∉ c) = true := by simp [hac]
          rw [this]
          simp only [List.length_cons]
          exact Nat.succ_lt_succ (filter_notin_lt l c path hmem hnc)

theorem badCount_le {g : List (Str × List Str)} {s r : CheckState}
    (h : ∀ a, a ∈ s.checked → a ∈ r.checked) : badCount g r ≤ badCount g s :=
  filter_notin_le (uni g) s.checked r.checked h

theorem checkPackage_exhaust (g : List (Str × List Str)) (edit : List Str) (fix : Str) :
    ∀ (fuel : Nat) (path : Str) (s : CheckState), badCount g s < fuel →
      s.exhausted = false → (checkPackage g edit fix fuel path s).exhausted = false
  | 0, _, _, hbc, _ => absurd hbc (Nat.not_lt_zero _)
  | Nat.succ f, path, s, hbc, hx => by
      simp only [checkPackage]
      split
      · exact hx
      · rename_i hchk
        cases hl : List.lookup path g with
        | none => simp only [hl]; exact hx
        | some imps =>
            simp only [hl]
            have hkey : path ∈ uni g := lookup_mem_keys hl
            have hlt : badCount g
                { s with checked := path :: s.checked, trace := s.trace ++ [path] } < f := by
              have h1 : badCount g
                  { s with checked := path :: s.checked, trace := s.trace ++ [path] } <
                  badCount g s := filter_notin_lt (uni g) s.checked path hkey hchk
              omega
            have hrun := foldl_pred
              (P := fun st => badCount g st < f ∧ st.exhausted = false)
              (f := importStep edit fix (checkPackage g edit fix f) path)
              ?_ imps _ ⟨hlt, hx⟩
            · exact hrun.2
            · intro st a hst
              obtain ⟨hbc', hx'⟩ := hst
              unfold importStep
              split
              · exact ⟨hbc', hx'⟩
              · split
                · split
                  · refine ⟨?_, checkPackage_exhaust g edit fix f _ _ hbc' hx'⟩
                    exact Nat.lt_of_le_of_lt
                      (badCount_le (checkPackage_le g edit fix f _ _).1) hbc'
                  · exact ⟨hbc', hx'⟩
                · refine ⟨?_, checkPackage_exhaust g edit fix f _ _ hbc' hx'⟩
                  exact Nat.lt_of_le_of_lt
                    (badCount_le (checkPackage_le g edit fix f _ _).1) hbc'


theorem foldl_flag {edit : List Str} {fix : Str} {recur : Str → CheckState → CheckState}
    (hrec : ∀ q st, stateLE st (recur q st)) (path imp : Str)
    (hedit : path ∉ edit) (hC : imp ≠ chars "C")
    (hcanon : canonicalPath imp = canonicalPath fix) (hfix : imp ≠ fix) :
    ∀ (imps : List Str) (st : CheckState), imp ∈ imps →
      (imps.foldl (importStep edit fix recur path) st).failed = true ∧
      (path, imp) ∈ (imps.foldl (importStep edit fix recur path) st).log
  | [], _, h => absurd h (List.not_mem_nil _)
  | i :: rest, st, h => by
      rcases List.mem_cons.mp h with rfl | hrest
      · have hstep : importStep edit fix recur path st imp =
            { st with failed := true, log := st.log ++ [(path, imp)] } := by
          unfold importStep
          rw [if_neg hC, if_pos ⟨hcanon, hfix⟩, if_neg hedit]
        simp only [List.foldl_cons, hstep]
        refine foldl_pred
          (P := fun st' => st'.failed = true ∧ (path, imp) ∈ st'.log) ?_ rest _
          ⟨rfl, by simp⟩
        intro st' a hst'
        have hle := importStep_le edit fix hrec path st' a
        exact ⟨hle.2.1 hst'.1, hle.2.2.1 _ hst'.2⟩
      · simp only [List.foldl_cons]
        exact foldl_flag hrec path imp hedit hC hcanon hfix rest _ hrest

theorem checkPackage_reach (g : List (Str × List Str)) (edit : List Str)
    (fix path imp : Str) (hcond : inconsistentUse g edit fix path imp) :
    ∀ (fuel : Nat) (path' : Str) (s : CheckState),
      path ∈ (checkPackage g edit fix fuel path' s).trace →
      path ∈ s.trace ∨
        ((checkPackage g edit fix fuel path' s).failed = true ∧
          (path, imp) ∈ (checkPackage g edit fix fuel path' s).log)
  | 0, path', s => by
      simp only [checkPackage]
      exact fun h => Or.inl h
  | Nat.succ f, path', s => by
      simp only [checkPackage]
      split
      · exact fun h => Or.inl h
      · rename_i hchk
        cases hl : List.lookup path' g with
        | none =>
            simp only [hl]
            intro h
            rcases List.mem_append.mp h with h' | h'
            · exact Or.inl h'
            · simp only [List.mem_singleton] at h'
              subst h'
              exfalso
              have himp := hcond.2.1
              rw [hl] at himp
              simp at himp
        | some imps =>
            simp only [hl]
            by_cases hpp : path = path'
            · subst hpp
              intro _
              have himp : imp ∈ imps := by
                have := hcond.2.1
                rwa [hl] at this
              exact Or.inr
                (foldl_flag (fun q st' => checkPackage_le g edit fix f q st') path imp
                  hcond.1 hcond.2.2.1 hcond.2.2.2.1 hcond.2.2.2.2 imps _ himp)
            · intro h
              have hfold : ∀ (l : List Str) (st : CheckState),
                  path ∈ (l.foldl (importStep edit fix (checkPackage g edit fix f) path') st).trace →
                  path ∈ st.trace ∨
                    ((l.foldl (importStep edit fix (checkPackage g edit fix f) path') st).failed = true ∧
                      (path, imp) ∈
                        (l.foldl (importStep edit fix (checkPackage g edit fix f) path') st).log) := by
                intro l
                induction l with
                | nil => exact fun st h' => Or.inl h'
                | cons a rest ih =>
                    intro st h'
                    simp only [List.foldl_cons] at h' ⊢
                    have hpres : ∀ st'' : CheckState,
                        st''.failed = true ∧ (path, imp) ∈ st''.log →
                        (rest.foldl (importStep edit fix (checkPackage g edit fix f) path') st'').failed = true ∧
                          (path, imp) ∈
                            (rest.foldl (importStep edit fix (checkPackage g edit fix f) path') st'').log := by
                      intro st'' hst''
                      refine foldl_pred
                        (P := fun t => t.failed = true ∧ (path, imp) ∈ t.log) ?_ rest _ hst''
                      intro t b ht
                      have hle := importStep_le edit fix
                        (fun q st0 => checkPackage_le g edit fix f q st0) path' t b
                      exact ⟨hle.2.1 ht.1, hle.2.2.1 _ ht.2⟩
                    rcases ih (importStep edit fix (checkPackage g edit fix f) path' st a) h' with hin | hflag
                    · have hstep : path ∈ st.trace ∨
                          ((importStep edit fix (checkPackage g edit fix f) path' st a).failed = true ∧
                            (path, imp) ∈
                              (importStep edit fix (checkPackage g edit fix f) path' st a).log) := by
                        revert hin
                        unfold importStep
                        split
                        · exact fun hin => Or.inl hin
                        · split
                          · split
                            · intro hin
                              rcases checkPackage_reach g edit fix path imp hcond f fix _ hin with hin' | hflag'
                              · exact Or.inl hin'
                              · exact Or.inr hflag'
                            · exact fun hin => Or.inl hin
                          · intro hin
                            rcases checkPackage_reach g edit fix path imp hcond f _ _ hin with hin' | hflag'
                            · exact Or.inl hin'
                            · exact Or.inr hflag'
                      rcases hstep with hin' | hflag'
                      · exact Or.inl hin'
                      · exact Or.inr (hpres _ hflag')
                    · exact Or.inr hflag
              rcases hfold imps _ h with hin | hflag
              · rcases List.mem_append.mp hin with h' | h'
                · exact Or.inl h'
                · simp only [List.mem_singleton] at h'
                  exact absurd h' hpp
              · exact Or.inr hflag

theorem runChecks_reach (g : List (Str × List Str)) (edit : List Str)
    (fix path imp : Str) (hcond : inconsistentUse g edit fix path imp) (fuel : Nat) :
    ∀ (roots : List Str) (s : CheckState),
      path ∈ (runChecks g edit fix fuel roots s).trace →
      path ∈ s.trace ∨
        ((runChecks g edit fix fuel roots s).failed = true ∧
          (path, imp) ∈ (runChecks g edit fix fuel roots s).log)
  | [], _ => fun h => Or.inl h
  | r :: roots, s => by
      intro h
      simp only [runChecks, List.foldl_cons] at h ⊢
      have hpres : ∀ st : CheckState,
          st.failed = true ∧ (path, imp) ∈ st.log →
          (roots.foldl (fun st p => checkPackage g edit fix fuel p st) st).failed = true ∧
            (path, imp) ∈ (roots.foldl (fun st p => checkPackage g edit fix fuel p st) st).log := by
        intro st hst
        refine foldl_pred (P := fun t => t.failed = true ∧ (path, imp) ∈ t.log) ?_ roots _ hst
        intro t b ht
        have hle := checkPackage_le g edit fix fuel b t
        exact ⟨hle.2.1 ht.1, hle.2.2.1 _ ht.2⟩
      have hrest := runChecks_reach g edit fix path imp hcond fuel roots
        (checkPackage g edit fix fuel r s)
      simp only [runChecks] at hrest
      rcases hrest h with hin | hflag
      · rcases checkPackage_reach g edit fix path imp hcond fuel r s hin with hin' | hflag'
        · exact Or.inl hin'
        · exact Or.inr (hpres _ hflag')
      · exact Or.inr hflag

/-- C3: whenever a recursively reached package outside the edit set has
an import in the family of the new package path (equal canonical
paths — the code's notion of using a different version of the same
package) that differs from the new package path, `main` logs the
inconsistent use on standard error and exits with status 1.  "Reached"
is: the package's path occurs in the trace of `build.Import` calls of
the check phase. -/
theorem inconsistent_dep_reported_and_fails
    (env : Str → Option Str) (tree : FSDir) (root : Str)
    (g : List (Str × List Str)) (fi : Str → List Str) (fix : Str) (fuel : Nat)
    (path imp : Str)
    (hcond : inconsistentUse g ((walkDir env root tree).map Prod.fst) fix path imp)
    (htrace : path ∈ (mainRun env tree root g fi fix fuel).state.trace) :
    (mainRun env tree root g fi fix fuel).exit = 1 ∧
    (path, imp) ∈ (mainRun env tree root g fi fix fuel).state.log := by
  have h := runChecks_reach g ((walkDir env root tree).map Prod.fst) fix path imp hcond
    fuel ((walkDir env root tree).map Prod.fst) initState htrace
  rcases h with hin | ⟨hf, hl⟩
  · exact absurd hin (List.not_mem_nil _)
  · refine ⟨?_, hl⟩
    show (if (runChecks g ((walkDir env root tree).map Prod.fst) fix fuel
        ((walkDir env root tree).map Prod.fst) initState).failed = true then 1 else 0) = 1
    rw [hf]
    rfl

/-- Witness for C3: in `bugRun` the dependency `a/v2/b` — reached,
outside the edit set — imports the old version `a/v1/b`; the run logs
the pair and exits 1. -/
theorem inconsistent_dep_reported_and_fails_witness :
    bugRun.exit = 1 ∧ (chars "a/v2/b", chars "a/v1/b") ∈ bugRun.state.log :=
  inconsistent_dep_reported_and_fails bugEnv bugTree (chars "/cwd") bugTable
    bugFileImports (chars "a/v2/b") 6 (chars "a/v2/b") (chars "a/v1/b")
    (by decide) (by decide)

/-- C7: the dependency check is memoized and terminates on every
finite import graph, cyclic ones included: a call on a path already in the
checked map returns the state unchanged; the paths passed to
`build.Import` over a whole check phase are pairwise distinct (each
package is imported at most once); and any fuel exceeding the number of
unchecked keys of the import table completes the recursion without
exhausting it, so the visit terminates. -/
theorem checkPackage_memoized (g : List (Str × List Str)) (edit : List Str) (fix : Str) :
    (∀ (fuel : Nat) (path : Str) (s : CheckState), path ∈ s.checked →
        checkPackage g edit fix (fuel + 1) path s = s) ∧
    (∀ (fuel : Nat) (roots : List Str),
        (runChecks g edit fix fuel roots initState).trace.Nodup) ∧
    (∀ (fuel : Nat) (path : Str) (s : CheckState), badCount g s < fuel →
        s.exhausted = false → (checkPackage g edit fix fuel path s).exhausted = false) := by
  refine ⟨?_, ?_, checkPackage_exhaust g edit fix⟩
  · intro fuel path s h
    simp [checkPackage, h]
  · intro fuel roots
    have hinv : TraceInv (runChecks g edit fix fuel roots initState) :=
      foldl_pred (fun st a h => checkPackage_traceInv g edit fix fuel a st h) roots
        initState ⟨List.nodup_nil, by simp [initState, TraceInv]⟩
    exact hinv.1

/-- Witness for C7 on the cyclic graph `a ↔ b`: a checked path returns
immediately, the trace of a full run over the cycle is duplicate-free,
and fuel 3 (two table keys plus one) completes without exhaustion. -/
theorem checkPackage_memoized_witness :
    (chars "a" ∈ (CheckState.mk [chars "a"] false [] [] [] false).checked ∧
      checkPackage cycTable [] cycFix 1 (chars "a")
          (CheckState.mk [chars "a"] false [] [] [] false) =
        CheckState.mk [chars "a"] false [] [] [] false) ∧
    (runChecks cycTable [] cycFix 5 [chars "a", chars "b"] initState).trace.Nodup ∧
    (badCount cycTable initState < 3 ∧ initState.exhausted = false ∧
      (checkPackage cycTable [] cycFix 3 (chars "a") initState).exhausted = false) :=
  ⟨⟨by decide, (checkPackage_memoized cycTable [] cycFix).1 0 (chars "a") _ (by decide)⟩,
   (checkPackage_memoized cycTable [] cycFix).2.1 5 [chars "a", chars "b"],
   ⟨by decide, rfl,
     (checkPackage_memoized cycTable [] cycFix).2.2 3 (chars "a") initState (by decide) rfl⟩⟩

theorem splitAtChar_eq {q : Char} : ∀ (l : Str) {a b : Str},
    splitAtChar q l = some (a, b) → l = a ++ q :: b ∧ q ∉ a
  | [], a, b, h => by simp [splitAtChar] at h
  | c :: rest, a, b, h => by
      simp only [splitAtChar] at h
      split at h
      · rename_i hc
        cases h
        subst hc
        exact ⟨rfl, List.not_mem_nil _⟩
      · rename_i hc
        cases hsc : splitAtChar q rest with
        | none => rw [hsc] at h; cases h
        | some ab =>
            obtain ⟨a', b'⟩ := ab
            rw [hsc] at h
            cases h
            obtain ⟨h1, h2⟩ := splitAtChar_eq rest hsc
            refine ⟨by rw [List.cons_append, ← h1], ?_⟩
            intro hmem
            rcases List.mem_cons.mp hmem with h' | h'
            · exact hc h'.symm
            · exact h2 h'

theorem splitAtChar_append {q : Char} : ∀ (a b : Str), q ∉ a →
    splitAtChar q (a ++ q :: b) = some (a, b)
  | [], b, _ => by simp [splitAtChar]
  | c :: a, b, h => by
      have hc : ¬(c = q) := fun hcq => h (hcq ▸ List.mem_cons_self _ _)
      rw [List.cons_append]
      simp only [splitAtChar]
      rw [if_neg hc, splitAtChar_append a b fun hm => h (List.mem_cons_of_mem _ hm)]

theorem splitAtChar_none {q : Char} : ∀ (l : Str), q ∉ l → splitAtChar q l = none
  | [], _ => rfl
  | c :: rest, h => by
      have hc : ¬(c = q) := fun hcq => h (hcq ▸ List.mem_cons_self _ _)
      simp only [splitAtChar]
      rw [if_neg hc, splitAtChar_none rest fun hm => h (List.mem_cons_of_mem _ hm)]

theorem splitAtChar_eq_none {q : Char} : ∀ (l : Str), splitAtChar q l = none → q ∉ l
  | [], _ => List.not_mem_nil _
  | c :: rest, h => by
      simp only [splitAtChar] at h
      split at h
      · cases h
      · rename_i hc
        cases hsc : splitAtChar q rest with
        | some ab => rw [hsc] at h; cases h
        | none =>
            intro hmem
            rcases List.mem_cons.mp hmem with h' | h'
            · exact hc h'.symm
            · exact splitAtChar_eq_none rest hsc h'

/-! Unfolding equations for one step of the `splitQuotedFields` loop,
with a variable budget. -/

theorem sqfGo_space (n : Nat) (c : Char) (rest : Str) (h : isSpaceByte c = true) :
    sqfGo (n + 1) (c :: rest) = sqfGo n rest := by
  simp only [sqfGo]
  rw [if_pos h]

theorem sqfGo_quote_none (n : Nat) (c : Char) (rest : Str) (hsp : isSpaceByte c = false)
    (hq : c = dquote ∨ c = squote) (hsc : splitAtChar c rest = none) :
    sqfGo (n + 1) (c :: rest) = Except.error c := by
  simp only [sqfGo]
  rw [if_neg (by simp [hsp]), if_pos hq, hsc]

theorem sqfGo_quote_some (n : Nat) (c : Char) (rest a b : Str)
    (hsp : isSpaceByte c = false) (hq : c = dquote ∨ c = squote)
    (hsc : splitAtChar c rest = some (a, b)) :
    sqfGo (n + 1) (c :: rest) =
      match sqfGo n b with
      | Except.error e => Except.error e
      | Except.ok fs => Except.ok (a :: fs) := by
  simp only [sqfGo]
  rw [if_neg (by simp [hsp]), if_pos hq, hsc]

theorem sqfGo_bare (n : Nat) (c : Char) (rest : Str) (hsp : isSpaceByte c = false)
    (hq : ¬(c = dquote ∨ c = squote)) :
    sqfGo (n + 1) (c :: rest) =
      match sqfGo n ((c :: rest).dropWhile fun d => !(isSpaceByte d)) with
      | Except.error e => Except.error e
      | Except.ok fs =>
          Except.ok (((c :: rest).takeWhile fun d => !(isSpaceByte d)) :: fs) := by
  simp only [sqfGo]
  rw [if_neg (by simp [hsp]), if_neg hq]

theorem dropWhile_nonspace_le (c : Char) (rest : Str) (hsp : isSpaceByte c = false) :
    ((c :: rest).dropWhile fun d => !(isSpaceByte d)).length ≤ rest.length := by
  have h1 : (c :: rest).dropWhile (fun d => !(isSpaceByte d)) =
      rest.dropWhile fun d => !(isSpaceByte d) := by
    rw [List.dropWhile_cons]
    simp [hsp]
  rw [h1]
  exact (List.dropWhile_suffix _).length_le

theorem sqfGo_congr : ∀ (b b' : Nat) (s : Str), s.length < b → s.length < b' →
    sqfGo b s = sqfGo b' s
  | 0, _, _, h, _ => absurd h (Nat.not_lt_zero _)
  | _ + 1, 0, _, _, h' => absurd h' (Nat.not_lt_zero _)
  | n + 1, m + 1, s, h, h' => by
      cases s with
      | nil => rfl
      | cons c rest =>
          simp only [List.length_cons] at h h'
          by_cases hsp : isSpaceByte c
          · rw [sqfGo_space n c rest hsp, sqfGo_space m c rest hsp]
            exact sqfGo_congr n m rest (by omega) (by omega)
          · have hsp' : isSpaceByte c = false := by simpa using hsp
            by_cases hq : c = dquote ∨ c = squote
            · cases hsc : splitAtChar c rest with
              | none => rw [sqfGo_quote_none n c rest hsp' hq hsc,
                  sqfGo_quote_none m c rest hsp' hq hsc]
              | some ab =>
                  obtain ⟨a, bb⟩ := ab
                  rw [sqfGo_quote_some n c rest a bb hsp' hq hsc,
                    sqfGo_quote_some m c rest a bb hsp' hq hsc]
                  have hlen : rest.length = a.length + (bb.length + 1) := by
                    rw [(splitAtChar_eq rest hsc).1]
                    simp [List.length_append]
                  rw [sqfGo_congr n m bb (by omega) (by omega)]
            · rw [sqfGo_bare n c rest hsp' hq, sqfGo_bare m c rest hsp' hq]
              have h2 := dropWhile_nonspace_le c rest hsp'
              rw [sqfGo_congr n m _ (by omega) (by omega)]

/-! The same equations for `splitQuotedFields` itself. -/

theorem sqf_space (c : Char) (rest : Str) (h : isSpaceByte c = true) :
    splitQuotedFields (c :: rest) = splitQuotedFields rest := by
  show sqfGo (rest.length + 1 + 1) (c :: rest) = _
  rw [sqfGo_space _ c rest h]
  rfl

theorem sqf_quote_none (c : Char) (rest : Str) (hsp : isSpaceByte c = false)
    (hq : c = dquote ∨ c = squote) (hsc : splitAtChar c rest = none) :
    splitQuotedFields (c :: rest) = Except.error c := by
  show sqfGo (rest.length + 1 + 1) (c :: rest) = _
  rw [sqfGo_quote_none _ c rest hsp hq hsc]

theorem sqf_quote_some (c : Char) (rest a b : Str) (hsp : isSpaceByte c = false)
    (hq : c = dquote ∨ c = squote) (hsc : splitAtChar c rest = some (a, b)) :
    splitQuotedFields (c :: rest) =
      match splitQuotedFields b with
      | Except.error e => Except.error e
      | Except.ok fs => Except.ok (a :: fs) := by
  show sqfGo (rest.length + 1 + 1) (c :: rest) = _
  rw [sqfGo_quote_some _ c rest a b hsp hq hsc]
  have hlen : rest.length = a.length + (b.length + 1) := by
    rw [(splitAtChar_eq rest hsc).1]
    simp [List.length_append]
  rw [sqfGo_congr (rest.length + 1) (b.length + 1) b (by omega) (Nat.lt_succ_self _)]
  rfl

theorem sqf_bare (c : Char) (rest : Str) (hsp : isSpaceByte c = false)
    (hq : ¬(c = dquote ∨ c = squote)) :
    splitQuotedFields (c :: rest) =
      match splitQuotedFields ((c :: rest).dropWhile fun d => !(isSpaceByte d)) with
      | Except.error e => Except.error e
      | Except.ok fs =>
          Except.ok (((c :: rest).takeWhile fun d => !(isSpaceByte d)) :: fs) := by
  show sqfGo (rest.length + 1 + 1) (c :: rest) = _
  rw [sqfGo_bare _ c rest hsp hq]
  have h2 := dropWhile_nonspace_le c rest hsp
  rw [sqfGo_congr (rest.length + 1)
    (((c :: rest).dropWhile fun d => !(isSpaceByte d)).length + 1) _ (by omega)
    (Nat.lt_succ_self _)]
  rfl

theorem quote_not_space {c : Char} (hq : c = dquote ∨ c = squote) :
    isSpaceByte c = false := by
  rcases hq with rfl | rfl <;> rfl

theorem sqf_ok_of_fields : ∀ {s : Str} {fs : List Str}, Fields s fs →
    splitQuotedFields s = Except.ok fs := by
  intro s fs h
  induction h with
  | nil => rfl
  | space hc _ ih => rw [sqf_space _ _ hc, ih]
  | quoted hq hnotin _ ih =>
      rw [sqf_quote_some _ _ _ _ (quote_not_space hq) hq (splitAtChar_append _ _ hnotin), ih]
  | bare hns hnq _ ih => rw [sqf_bare _ _ hns hnq, ih]

theorem sqf_error_of_unterm : ∀ {s : Str}, Unterm s →
    ∃ e, splitQuotedFields s = Except.error e := by
  intro s h
  induction h with
  | base hq hnotin =>
      exact ⟨_, sqf_quote_none _ _ (quote_not_space hq) hq (splitAtChar_none _ hnotin)⟩
  | space hc _ ih => rw [sqf_space _ _ hc]; exact ih
  | quoted hq hnotin _ ih =>
      obtain ⟨e, he⟩ := ih
      rw [sqf_quote_some _ _ _ _ (quote_not_space hq) hq (splitAtChar_append _ _ hnotin), he]
      exact ⟨e, rfl⟩
  | bare hns hnq _ ih =>
      obtain ⟨e, he⟩ := ih
      rw [sqf_bare _ _ hns hnq, he]
      exact ⟨e, rfl⟩

theorem fields_of_sqf_ok : ∀ (n : Nat) (s : Str) (fs : List Str), s.length ≤ n →
    splitQuotedFields s = Except.ok fs → Fields s fs
  | _, [], fs, _, h => by
      cases h
      exact Fields.nil
  | 0, c :: rest, _, hlen, _ => by simp at hlen
  | Nat.succ n, c :: rest, fs, hlen, h => by
      simp only [List.length_cons] at hlen
      by_cases hsp : isSpaceByte c
      · rw [sqf_space _ _ hsp] at h
        exact Fields.space hsp (fields_of_sqf_ok n rest fs (by omega) h)
      · have hsp' : isSpaceByte c = false := by simpa using hsp
        by_cases hq : c = dquote ∨ c = squote
        · cases hsc : splitAtChar c rest with
          | none => rw [sqf_quote_none _ _ hsp' hq hsc] at h; cases h
          | some ab =>
              obtain ⟨a, b⟩ := ab
              rw [sqf_quote_some _ _ _ _ hsp' hq hsc] at h
              cases hb : splitQuotedFields b with
              | error e => rw [hb] at h; simp at h
              | ok fs' =>
                  rw [hb] at h
                  cases h
                  obtain ⟨h1, h2⟩ := splitAtChar_eq rest hsc
                  have hlenb : b.length ≤ n := by
                    have : rest.length = a.length + (b.length + 1) := by
                      rw [h1]; simp [List.length_append]
                    omega
                  rw [h1]
                  exact Fields.quoted hq h2 (fields_of_sqf_ok n b fs' hlenb hb)
        · rw [sqf_bare _ _ hsp' hq] at h
          cases hd : splitQuotedFields ((c :: rest).dropWhile fun d => !(isSpaceByte d)) with
          | error e => rw [hd] at h; simp at h
          | ok fs' =>
              rw [hd] at h
              cases h
              have hlend : ((c :: rest).dropWhile fun d => !(isSpaceByte d)).length ≤ n := by
                have := dropWhile_nonspace_le c rest hsp'
                omega
              exact Fields.bare hsp' hq (fields_of_sqf_ok n _ fs' hlend hd)

theorem unterm_of_sqf_error : ∀ (n : Nat) (s : Str) (e : Char), s.length ≤ n →
    splitQuotedFields s = Except.error e → Unterm s
  | _, [], _, _, h => by cases h
  | 0, c :: rest, _, hlen, _ => by simp at hlen
  | Nat.succ n, c :: rest, e, hlen, h => by
      simp only [List.length_cons] at hlen
      by_cases hsp : isSpaceByte c
      · rw [sqf_space _ _ hsp] at h
        exact Unterm.space hsp (unterm_of_sqf_error n rest e (by omega) h)
      · have hsp' : isSpaceByte c = false := by simpa using hsp
        by_cases hq : c = dquote ∨ c = squote
        · cases hsc : splitAtChar c rest with
          | none => exact Unterm.base hq (splitAtChar_eq_none rest hsc)
          | some ab =>
              obtain ⟨a, b⟩ := ab
              rw [sqf_quote_some _ _ _ _ hsp' hq hsc] at h
              cases hb : splitQuotedFields b with
              | error e' =>
                  obtain ⟨h1, h2⟩ := splitAtChar_eq rest hsc
                  have hlenb : b.length ≤ n := by
                    have : rest.length = a.length + (b.length + 1) := by
                      rw [h1]; simp [List.length_append]
                    omega
                  rw [h1]
                  exact Unterm.quoted hq h2 (unterm_of_sqf_error n b e' hlenb hb)
              | ok fs' => rw [hb] at h; simp at h
        · rw [sqf_bare _ _ hsp' hq] at h
          cases hd : splitQuotedFields ((c :: rest).dropWhile fun d => !(isSpaceByte d)) with
          | error e' =>
              have hlend : ((c :: rest).dropWhile fun d => !(isSpaceByte d)).length ≤ n := by
                have := dropWhile_nonspace_le c rest hsp'
                omega
              exact Unterm.bare hsp' hq (unterm_of_sqf_error n _ e' hlend hd)
          | ok fs' => rw [hd] at h; simp at h

/-- C8: `splitQuotedFields` fails exactly when the input reaches (after
leading space and complete fields) a field opening with a single or
double quote that has no later matching closing quote; on every other
input it returns, in order, the maximal whitespace-separated fields,
a field that begins with a quote extending to the matching quote and
losing the surrounding quotes with no unescaping inside. -/
theorem splitQuotedFields_spec (s : Str) :
    ((∃ e, splitQuotedFields s = Except.error e) ↔ Unterm s) ∧
    (∀ fs, splitQuotedFields s = Except.ok fs ↔ Fields s fs) := by
  constructor
  · constructor
    · rintro ⟨e, he⟩
      exact unterm_of_sqf_error s.length s e (Nat.le_refl _) he
    · exact sqf_error_of_unterm
  · intro fs
    constructor
    · exact fields_of_sqf_ok s.length s fs (Nat.le_refl _)
    · exact sqf_ok_of_fields
